import Mathlib

/-!
Shallow embedding of the go-verkle proof subsystem: the proof builder
(MakeVerkleMultiProof), the wire serializer and deserializer
(SerializeProof, DeserializeProof, the JSON unmarshallers), the stateless
reconstruction entry point (TreeFromProof), and the legacy rust-verkle
binary deserializer.

Modelling conventions:
* byte strings are lists of naturals (each entry a byte value);
* a group element (Point) is identified with its canonical 32-byte
  encoding, so Bytes() is the identity and the trusted decoder
  SetBytesTrusted is the identity as well (the group arithmetic is an
  external collaborator of the core);
* Go slice-indexing panics, nil-pointer dereferences and out-of-range
  copies are modelled by Option/Except failure values;
* a nil Go byte slice and an empty one are both modelled by the empty
  list (the source only ever inspects values through len);
* external collaborators (the tree walk GetProofItems and the
  polynomial-commitment backend CreateMultiProof) are taken as function
  parameters of the builder.
-/

namespace Verkle

/-- Byte strings: lists of byte values. -/
abbrev Bytes := List Nat

/-- A group element, identified with its canonical 32-byte encoding. -/
abbrev Pt := Bytes

/-- A scalar field element, identified with its 32-byte encoding. -/
abbrev Fr := Bytes

/-- Lexicographic byte-string comparison, non-strict: the order used by
Go sort.Strings on path strings and by the ascending key sort. -/
def bytesLE : List Nat → List Nat → Bool
  | [], _ => true
  | _ :: _, [] => false
  | a :: as, b :: bs =>
    if a < b then true
    else if b < a then false
    else bytesLE as bs

/-- Lexicographic byte-string comparison, strict. -/
def bytesLT : List Nat → List Nat → Bool
  | [], [] => false
  | [], _ :: _ => true
  | _ :: _, [] => false
  | a :: as, b :: bs =>
    if a < b then true
    else if b < a then false
    else bytesLT as bs

/-- The non-strict lexicographic order as a proposition. -/
def BLE (a b : Bytes) : Prop := bytesLE a b = true

/-- The strict lexicographic order as a proposition. -/
def BLT (a b : Bytes) : Prop := bytesLT a b = true

instance : DecidableRel BLE := fun a b => instDecidableEqBool (bytesLE a b) true

instance : DecidableRel BLT := fun a b => instDecidableEqBool (bytesLT a b) true

theorem bytesLE_total (a b : List Nat) : bytesLE a b = true ∨ bytesLE b a = true := by
  induction a generalizing b with
  | nil => left; rfl
  | cons x as ih =>
    cases b with
    | nil => right; rfl
    | cons y bs =>
      rcases Nat.lt_trichotomy x y with h | h | h
      · left; simp [bytesLE, h]
      · subst h
        rcases ih bs with h2 | h2
        · left; simp [bytesLE, h2]
        · right; simp [bytesLE, h2]
      · right; simp [bytesLE, h, Nat.lt_asymm h]

theorem bytesLE_trans {a b c : List Nat} (h1 : bytesLE a b = true)
    (h2 : bytesLE b c = true) : bytesLE a c = true := by
  induction a generalizing b c with
  | nil => rfl
  | cons x as ih =>
    cases b with
    | nil => simp [bytesLE] at h1
    | cons y bs =>
      cases c with
      | nil => simp [bytesLE] at h2
      | cons z cs =>
        simp only [bytesLE] at h1 h2 ⊢
        rcases Nat.lt_trichotomy x y with hxy | hxy | hxy
        · rcases Nat.lt_trichotomy y z with hyz | hyz | hyz
          · simp [Nat.lt_trans hxy hyz]
          · subst hyz; simp [hxy]
          · simp [hyz, Nat.lt_asymm hyz] at h2
        · subst hxy
          rcases Nat.lt_trichotomy x z with hyz | hyz | hyz
          · simp [hyz]
          · subst hyz
            simp only [Nat.lt_irrefl, if_false] at h1 h2 ⊢
            exact ih h1 h2
          · simp [hyz, Nat.lt_asymm hyz] at h2
        · simp [hxy, Nat.lt_asymm hxy] at h1

theorem bytesLE_antisymm {a b : List Nat} (h1 : bytesLE a b = true)
    (h2 : bytesLE b a = true) : a = b := by
  induction a generalizing b with
  | nil =>
    cases b with
    | nil => rfl
    | cons y bs => simp [bytesLE] at h2
  | cons x as ih =>
    cases b with
    | nil => simp [bytesLE] at h1
    | cons y bs =>
      simp only [bytesLE] at h1 h2
      rcases Nat.lt_trichotomy x y with hxy | hxy | hxy
      · simp [hxy, Nat.lt_asymm hxy] at h2
      · subst hxy
        simp only [Nat.lt_irrefl, if_false] at h1 h2
        rw [ih h1 h2]
      · simp [hxy, Nat.lt_asymm hxy] at h1

theorem bytesLT_of_bytesLE_ne {a b : List Nat} (h : bytesLE a b = true)
    (hne : a ≠ b) : bytesLT a b = true := by
  induction a generalizing b with
  | nil =>
    cases b with
    | nil => exact absurd rfl hne
    | cons y bs => rfl
  | cons x as ih =>
    cases b with
    | nil => simp [bytesLE] at h
    | cons y bs =>
      simp only [bytesLE] at h
      simp only [bytesLT]
      rcases Nat.lt_trichotomy x y with hxy | hxy | hxy
      · simp [hxy]
      · subst hxy
        simp only [Nat.lt_irrefl, if_false] at h ⊢
        exact ih h (fun hc => hne (by rw [hc]))
      · simp [hxy, Nat.lt_asymm hxy] at h

instance : IsTotal Bytes BLE := ⟨fun a b => bytesLE_total a b⟩

instance : IsTrans Bytes BLE := ⟨fun _ _ _ h1 h2 => bytesLE_trans h1 h2⟩

instance : IsAntisymm Bytes BLE := ⟨fun _ _ h1 h2 => bytesLE_antisymm h1 h2⟩

theorem BLT_of_BLE_ne {a b : Bytes} (h : BLE a b) (hne : a ≠ b) : BLT a b :=
  bytesLT_of_bytesLE_ne h hne

/-- Go copy of a byte slice into a zero-initialised fixed array of n
bytes: the first min(n, length) bytes are copied, the rest stay zero. -/
def fit (n : Nat) (b : Bytes) : Bytes := b.take n ++ List.replicate (n - b.length) 0

theorem fit_of_length {n : Nat} {b : Bytes} (h : b.length = n) : fit n b = b := by
  unfold fit
  rw [h, Nat.sub_self, List.replicate_zero, List.append_nil, List.take_of_length_le (le_of_eq h)]

/-- The multipoint opening produced by the external polynomial-commitment
backend: commitment D, the IPA transcript rounds L and R, and the final
scalar, all identified with their canonical encodings. -/
structure MultiProof where
  D : Pt
  L : List Pt
  R : List Pt
  A_scalar : Fr
deriving DecidableEq

/-- In-memory proof (struct Proof of proof_ipa.go; the legacy file
declares the identical struct). A nil commitment pointer in Cs is the
none value. -/
structure Proof where
  Multipoint : MultiProof
  ExtStatus : List Nat
  Cs : List (Option Pt)
  PoaStems : List Bytes
  Keys : List Bytes
  Values : List Bytes
deriving DecidableEq

/-- Wire form of the inner-product argument (struct IPAProof): in Go the
fields are fixed-size arrays CL, CR of eight 32-byte words and a 32-byte
final evaluation. -/
structure IPAProof where
  CL : List Bytes
  CR : List Bytes
  FinalEvaluation : Bytes
deriving DecidableEq

/-- Wire form of a proof (struct VerkleProof). The ipaProof field models
the Go pointer field named IPAProof; none is a nil pointer. -/
structure VerkleProof where
  OtherStems : List Bytes
  DepthExtensionPresent : List Nat
  CommitmentsByPath : List Bytes
  D : Bytes
  ipaProof : Option IPAProof
deriving DecidableEq

/-- One suffix entry of a stem state diff (struct SuffixStateDiff). -/
structure SuffixStateDiff where
  Suffix : Nat
  CurrentValue : Option Bytes
deriving DecidableEq

/-- One stem group of the state diff (struct StemStateDiff). -/
structure StemStateDiff where
  Stem : Bytes
  SuffixDiffs : List SuffixStateDiff
deriving DecidableEq

/-- The wire state diff: a list of stem groups. -/
abbrev StateDiff := List StemStateDiff

/-- Right-pad a value shorter than 32 bytes with zeros to 32 bytes
(the aligned buffer of the default case of SerializeProof). -/
def padTo32 (v : Bytes) : Bytes := v ++ List.replicate (32 - v.length) 0

/-- The per-key body of the serialization loop of SerializeProof: build
the SuffixStateDiff for one key and its value. Failure models the Go
panics (indexing key at 31 for a short key, copying an over-long value
into the 32-byte aligned buffer). -/
def mkSuffixDiff (key value : Bytes) : Option SuffixStateDiff :=
  if key.length < 32 then none
  else if value.length = 0 then some ⟨key.getD 31 0, none⟩
  else if value.length = 32 then some ⟨key.getD 31 0, some value⟩
  else if value.length < 32 then some ⟨key.getD 31 0, some (padTo32 value)⟩
  else none

/-- The state-diff grouping loop of SerializeProof, carrying the group
currently being filled (the stemdiff pointer): a suffix diff is appended
to the current group while the key stem equals the group stem, otherwise
the group is closed and a new one is opened. -/
def sdLoop (cur : StemStateDiff) : List (Bytes × Bytes) → Option StateDiff
  | [] => some [cur]
  | (k, v) :: rest =>
    match mkSuffixDiff k v with
    | none => none
    | some sfd =>
      if cur.Stem = k.take 31 then
        sdLoop ⟨cur.Stem, cur.SuffixDiffs ++ [sfd]⟩ rest
      else
        (sdLoop ⟨k.take 31, [sfd]⟩ rest).map (cur :: ·)

/-- The full state-diff grouping of SerializeProof over the (key, value)
pairs, in key order. -/
def buildStateDiff : List (Bytes × Bytes) → Option StateDiff
  | [] => some []
  | (k, v) :: rest =>
    match mkSuffixDiff k v with
    | none => none
    | some sfd => sdLoop ⟨k.take 31, [sfd]⟩ rest

/-- The commitment-serialization loop of SerializeProof: each commitment
pointer is dereferenced for its canonical bytes; a nil pointer is a
panic. -/
def collectPtrs : List (Option Pt) → Option (List Pt)
  | [] => some []
  | none :: _ => none
  | some a :: rest =>
    match collectPtrs rest with
    | some l => some (a :: l)
    | none => none

/-- SerializeProof: convert an in-memory proof to the wire form plus the
state diff. Failure models the Go panics: a nil commitment pointer in
Cs, fewer than eight IPA rounds, a values list shorter than the keys
list, or a panic inside the grouping loop. -/
def serializeProof (proof : Proof) : Option (VerkleProof × StateDiff) :=
  if proof.Multipoint.L.length < 8 ∨ proof.Multipoint.R.length < 8 then none
  else if proof.Values.length < proof.Keys.length then none
  else
    match collectPtrs proof.Cs, buildStateDiff (proof.Keys.zip proof.Values) with
    | some cbp, some statediff =>
      some (⟨proof.PoaStems.map (fit 31),
             proof.ExtStatus,
             cbp,
             proof.Multipoint.D,
             some ⟨proof.Multipoint.L.take 8,
                   proof.Multipoint.R.take 8,
                   proof.Multipoint.A_scalar⟩⟩,
            statediff)
    | _, _ => none

/-- Expansion of one suffix diff of a stem group back into a (key,
value) pair (the inner loop body of DeserializeProof): the key is the
stem copied into a zeroed 31-byte array followed by the suffix, the
value is the current value or nil. -/
def sfdKV (stem : Bytes) (s : SuffixStateDiff) : Bytes × Bytes :=
  (fit 31 stem ++ [s.Suffix], match s.CurrentValue with | some v => v | none => [])

/-- Expansion of a state diff back into parallel (key, value) pairs, in
the order groups and suffixes appear (the final loop of
DeserializeProof). -/
def statediffKVs (sd : StateDiff) : List (Bytes × Bytes) :=
  sd.flatMap fun g => g.SuffixDiffs.map (sfdKV g.Stem)

/-- Pad or truncate a list of points to exactly n entries, missing
entries being zero-value points (Go make of a fixed-length point slice
followed by indexed writes). -/
def fitPts (n : Nat) (xs : List Pt) : List Pt := xs.take n ++ List.replicate (n - xs.length) []

/-- DeserializeProof (the VerkleProof form): rebuild the in-memory proof.
The commitment decoding is the trusted decoder, modelled as the
identity; failure models the nil-pointer dereference when the wire form
carries no IPA proof. -/
def deserializeProof (vp : VerkleProof) (statediff : StateDiff) : Option Proof :=
  match vp.ipaProof with
  | none => none
  | some ipp =>
    some ⟨⟨vp.D, fitPts 8 ipp.CL, fitPts 8 ipp.CR, ipp.FinalEvaluation⟩,
          vp.DepthExtensionPresent,
          vp.CommitmentsByPath.map some,
          vp.OtherStems,
          (statediffKVs statediff).map Prod.fst,
          (statediffKVs statediff).map Prod.snd⟩

/-- The proof-element aggregator (struct ProofElements): the parallel
opening vectors and the per-path commitment map ByPath, the latter
modelled as one enumeration of its entries (Go map iteration order is
arbitrary, which theorems quantify over as a permutation). -/
structure ProofElements where
  Cis : List (Option Pt)
  Zis : List Nat
  Yis : List Fr
  Fis : List (List Fr)
  ByPath : List (Bytes × Pt)

/-- Go map lookup in a ByPath enumeration: the first entry with the
given path, none (a nil pointer) when the path is absent. -/
def byPathGet (entries : List (Bytes × Pt)) (p : Bytes) : Option Pt :=
  match entries with
  | [] => none
  | e :: rest => if e.1 = p then some e.2 else byPathGet rest p

/-- The sorted list of non-root paths of a ByPath enumeration: all paths
of positive length, sorted in ascending lexicographic byte order
(the paths slice of MakeVerkleMultiProof after sort.Strings). -/
def pathsOf (entries : List (Bytes × Pt)) : List Bytes :=
  List.insertionSort BLE ((entries.map Prod.fst).filter (fun p => !p.isEmpty))

/-- The commitment vector construction of MakeVerkleMultiProof: allocate
a slice one shorter than the ByPath map and fill it with the map values
of the sorted non-root paths. Failure models the Go panics (a negative
make length when the map is empty, an out-of-range write when the map
lacks a root entry); a path missing from the map would yield a nil
pointer, and unwritten trailing slots stay nil. -/
def buildCis (entries : List (Bytes × Pt)) : Option (List (Option Pt)) :=
  if entries.length = 0 then none
  else if entries.length - 1 < (pathsOf entries).length then none
  else some ((pathsOf entries).map (byPathGet entries) ++
             List.replicate (entries.length - 1 - (pathsOf entries).length) none)

/-- Errors of the proof builder: the explicit empty-key-set error, or a
Go runtime panic. -/
inductive MakeErr where
  | emptyKeySet
  | panicked
deriving DecidableEq

/-- The ascending byte-order key sort performed in place on the caller-supplied
key slice by GetCommitmentsForMultiproof. Modelled from the spec: the
keylist comparator (not part of the analysed sources) orders keys
ascending in lexicographic byte order. -/
def sortKeys (keys : List Bytes) : List Bytes := List.insertionSort BLE keys

/-- Lookup in the caller-supplied key-to-value map, modelled as an
association list. -/
def assocGet (kvs : List (Bytes × Bytes)) (k : Bytes) : Option Bytes :=
  match kvs with
  | [] => none
  | e :: rest => if e.1 = k then some e.2 else assocGet rest k

/-- GetCommitmentsForMultiproof: sort the caller-supplied key slice in place,
then run the tree walk on the sorted keys. The walk (GetProofItems, an
external collaborator) is a parameter; the sorted list is also returned
because the in-place sort mutates the caller-supplied slice. -/
def getCommitmentsForMultiproof
    (walk : List Bytes → ProofElements × List Nat × List Bytes)
    (keys : List Bytes) : ProofElements × List Nat × List Bytes × List Bytes :=
  ((walk (sortKeys keys)).1, (walk (sortKeys keys)).2.1,
   (walk (sortKeys keys)).2.2, sortKeys keys)

/-- Result of MakeVerkleMultiProof: the proof, the opening vectors
returned alongside it, and the final contents of the caller-supplied key slice
(mutated in place by the sort). -/
structure MakeResult where
  proof : Proof
  Cis : List (Option Pt)
  Zis : List Nat
  Yis : List Fr
  keysAfter : List Bytes
deriving DecidableEq

/-- MakeVerkleMultiProof: fail on an empty key set, sort the keys, run
the walk, look the sorted keys up in the caller-supplied value map (a
missing key yields nil), invoke the external opening primitive on the
aggregated vectors and package the commitments in canonical path
order. -/
def makeVerkleMultiProof
    (walk : List Bytes → ProofElements × List Nat × List Bytes)
    (createMP : List (Option Pt) → List (List Fr) → List Nat → MultiProof)
    (keys : List Bytes) (keyvals : List (Bytes × Bytes)) :
    Except MakeErr MakeResult :=
  if keys.length = 0 then .error .emptyKeySet
  else
    match buildCis (getCommitmentsForMultiproof walk keys).1.ByPath with
    | none => .error .panicked
    | some cis =>
      .ok ⟨⟨createMP (getCommitmentsForMultiproof walk keys).1.Cis
              (getCommitmentsForMultiproof walk keys).1.Fis
              (getCommitmentsForMultiproof walk keys).1.Zis,
            (getCommitmentsForMultiproof walk keys).2.1, cis,
            (getCommitmentsForMultiproof walk keys).2.2.1,
            (getCommitmentsForMultiproof walk keys).2.2.2,
            (getCommitmentsForMultiproof walk keys).2.2.2.map
              (fun k => (assocGet keyvals k).getD [])⟩,
          (getCommitmentsForMultiproof walk keys).1.Cis,
          (getCommitmentsForMultiproof walk keys).1.Zis,
          (getCommitmentsForMultiproof walk keys).1.Yis,
          (getCommitmentsForMultiproof walk keys).2.2.2⟩

/-- The build-and-serialize pipeline: run the builder, then serialize
the resulting proof to the wire forms. -/
def buildAndSerialize
    (walk : List Bytes → ProofElements × List Nat × List Bytes)
    (createMP : List (Option Pt) → List (List Fr) → List Nat → MultiProof)
    (keys : List Bytes) (keyvals : List (Bytes × Bytes)) :
    Except MakeErr (Option (VerkleProof × StateDiff)) :=
  (makeVerkleMultiProof walk createMP keys keyvals).map (fun r => serializeProof r.proof)

/-- Modelled from the spec: the extension-status classification
constants (status values PRESENT = 1, ABSENT_EMPTY = 2, ABSENT_OTHER = 0
of the status byte layout depth shifted left by three or-ed with
status); their defining file is not among the analysed sources. -/
def extStatusAbsentOther : Nat := 0

/-- Modelled from the spec: see extStatusAbsentOther. -/
def extStatusPresent : Nat := 1

/-- Modelled from the spec: see extStatusAbsentOther. -/
def extStatusAbsentEmpty : Nat := 2

/-- Per-stem reconstruction information (struct stemInfo of
TreeFromProof). The suffix-to-value map is modelled as a function. -/
structure stemInfo where
  depth : Nat
  stemType : Nat
  has_c1 : Bool
  has_c2 : Bool
  values : Nat → Option Bytes
  stem : Bytes

/-- The stem deduplication prologue of TreeFromProof: one 31-byte stem
per run of keys sharing it. Failure models the Go panic of slicing a
key shorter than 31 bytes. -/
def treeStems (keys : List Bytes) : Option (List Bytes) :=
  List.foldlM
    (fun stems k =>
      if k.length < 31 then none
      else if stems.getLast? = some (k.take 31) then some stems
      else some (stems ++ [k.take 31]))
    [] keys

/-- The PRESENT (default) branch of the per-stem classification loop:
collect the values of all keys sharing the stem path, record which leaf
halves are populated, and remember the stem of any key carrying a
value. -/
def presentStemInfo (keys vals : List Bytes) (path : Bytes) (si : stemInfo) : stemInfo :=
  (keys.zip vals).foldl
    (fun si kv =>
      if kv.1.take path.length = path ∧ kv.2 ≠ [] then
        { si with
          values := fun b => if b = kv.1.getD 31 0 then some kv.2 else si.values b
          has_c1 := si.has_c1 || decide (kv.1.getD 31 0 < 128)
          has_c2 := si.has_c2 || decide (128 ≤ kv.1.getD 31 0)
          stem := kv.1.take 31 }
      else si)
    si

/-- The per-stem classification loop of TreeFromProof: one iteration per
extension-status byte, consuming proof-of-absence stems for
ABSENT_OTHER entries and skipping all deduplicated stems that share the
extension path. Failure models the Go panics: indexing the stems slice
past its end, and taking poas[0] from an exhausted proof-of-absence
list (the loop has no error return of its own). -/
def classifyLoop (keys vals stems : List Bytes) :
    List Nat → Nat → List Bytes → List (Bytes × stemInfo) →
    Option (List (Bytes × stemInfo))
  | [], _, _, acc => some acc
  | es :: rest, stemIndex, poas, acc =>
    if h : stemIndex < stems.length then
      let stem0 := stems.get ⟨stemIndex, h⟩
      let depth := es / 8
      let path := stem0.take depth
      let si0 : stemInfo := ⟨depth, es % 4, false, false, fun _ => none, []⟩
      let step : Option (stemInfo × List Bytes) :=
        if si0.stemType = extStatusAbsentEmpty then some (si0, poas)
        else if si0.stemType = extStatusAbsentOther then
          match poas with
          | [] => none
          | poa :: poasRest => some ({ si0 with stem := poa }, poasRest)
        else some (presentStemInfo keys vals path si0, poas)
      match step with
      | none => none
      | some (si, poas2) =>
        let nextIndex := stemIndex + 1 +
          ((stems.drop (stemIndex + 1)).takeWhile (fun s => s.take depth == path)).length
        classifyLoop keys vals stems rest nextIndex poas2 (acc ++ [(path, si)])
    else none

/-- Outcomes of TreeFromProof, separating a Go runtime panic from an
error return. -/
inductive TreeOutcome where
  | panicked
  | failed
  | built
deriving DecidableEq

/-- TreeFromProof up to its stem-classification phase. The subsequent
stateless-node insertion phase (NewStatelessWithCommitment, insertStem,
insertValue, external collaborators not among the analysed sources) is
abstracted as a parameter receiving the classified path list; the
classification phase itself has no error return in the source, so any
failure there is a panic. -/
def treeFromProofOutcome
    (insertPhase : List (Bytes × stemInfo) → TreeOutcome)
    (proof : Proof) : TreeOutcome :=
  match treeStems proof.Keys with
  | none => .panicked
  | some stems =>
    match classifyLoop proof.Keys proof.Values stems proof.ExtStatus 0 proof.PoaStems [] with
    | none => .panicked
    | some infos => insertPhase infos

/-- Read a little-endian uint32 from the head of a byte stream
(binary.Read with a uint32 argument). -/
def readUint32LE : List Nat → Option (Nat × List Nat)
  | b0 :: b1 :: b2 :: b3 :: rest =>
    some (b0 + 256 * b1 + 65536 * b2 + 16777216 * b3, rest)
  | _ => none

/-- Read exactly n bytes from the head of a byte stream (binary.Read
with a fixed-size array argument). -/
def readBytes (n : Nat) (bs : List Nat) : Option (List Nat × List Nat) :=
  if n ≤ bs.length then some (bs.take n, bs.drop n) else none

/-- Read count consecutive fixed-size chunks from a byte stream. -/
def readChunks (count size : Nat) (bs : List Nat) : Option (List Bytes × List Nat) :=
  match count with
  | 0 => some ([], bs)
  | c + 1 =>
    match readBytes size bs with
    | none => none
    | some (chunk, rest) =>
      match readChunks c size rest with
      | none => none
      | some (chunks, rest2) => some (chunk :: chunks, rest2)

/-- Modelled from the spec: the multipoint read of the legacy binary
deserializer (MultiProof.Read of the external go-ipa package, whose
error the caller ignores) consumes the commitment D, eight left and
eight right IPA round commitments and the final scalar from the rest of
the stream; short reads leave zero values behind and are not errors for
the caller. -/
def readMultiProofLenient (bs : List Nat) : MultiProof :=
  let d := fit 32 (bs.take 32)
  let rest := bs.drop 32
  let ls := (List.range 8).map (fun i => fit 32 ((rest.drop (32 * i)).take 32))
  let rest2 := rest.drop 256
  let rs := (List.range 8).map (fun i => fit 32 ((rest2.drop (32 * i)).take 32))
  let a := fit 32 ((rest2.drop 256).take 32)
  ⟨d, ls, rs, a⟩

/-- The legacy rust-verkle binary DeserializeProof: a little-endian
count then 31-byte proof-of-absence stems, a count then extension
status bytes, a count then 32-byte commitments, then the multipoint.
Point decoding validity is external and modelled as always accepting;
the keys and values locals are declared and never assigned, so the
returned proof carries nil for both. -/
def deserializeProofLegacy (bs : List Nat) : Option Proof :=
  (readUint32LE bs).bind fun p1 =>
  (readChunks p1.1 31 p1.2).bind fun p2 =>
  (readUint32LE p2.2).bind fun p3 =>
  (readBytes p3.1 p3.2).bind fun p4 =>
  (readUint32LE p4.2).bind fun p5 =>
  (readChunks p5.1 32 p5.2).bind fun p6 =>
  some ⟨readMultiProofLenient p6.2, p4.1, p6.1.map some, p2.1, [], []⟩

/-- Decode one hexadecimal digit character (by character code):
0-9, a-f and A-F as in the Go encoding/hex package. -/
def hexDigit (c : Nat) : Option Nat :=
  if 48 ≤ c ∧ c ≤ 57 then some (c - 48)
  else if 97 ≤ c ∧ c ≤ 102 then some (c - 87)
  else if 65 ≤ c ∧ c ≤ 70 then some (c - 55)
  else none

/-- hex.DecodeString over a string given as its character codes: fails
on an odd-length string or a non-hex character. -/
def hexDecode : List Nat → Option (List Nat)
  | [] => some []
  | [_] => none
  | c1 :: c2 :: rest =>
    match hexDigit c1, hexDigit c2, hexDecode rest with
    | some d1, some d2, some bs => some ((16 * d1 + d2) :: bs)
    | _, _, _ => none

/-- The auxiliary JSON shape of an IPAProof (struct ipaproofMarshaller):
the already-parsed hex strings, each given as its character codes. The
Go fields CL and CR are fixed arrays of eight strings; an index beyond
the modelled list yields the zero value, the empty string. -/
structure ipaproofMarshaller where
  CL : List (List Nat)
  CR : List (List Nat)
  FinalEvaluation : List Nat

/-- Length-check a hex string for a 32-byte field and decode it into
the zero-initialised fixed array (one iteration of the CL/CR loop of
IPAProof.UnmarshalJSON). -/
def checkDecode64 (s : List Nat) : Option Bytes :=
  if s.length = 64 then (hexDecode s).map (fit 32) else none

/-- The round loop of IPAProof.UnmarshalJSON: for each of the eight
rounds check and decode CL and then CR. -/
def ipaRounds (aux : ipaproofMarshaller) : List Nat → Option (List Bytes × List Bytes)
  | [] => some ([], [])
  | i :: rest =>
    match checkDecode64 (aux.CL.getD i []), checkDecode64 (aux.CR.getD i []) with
    | some cl, some cr =>
      match ipaRounds aux rest with
      | some (cls, crs) => some (cl :: cls, cr :: crs)
      | none => none
    | _, _ => none

/-- IPAProof.UnmarshalJSON after the generic JSON parse: the final
evaluation must be exactly 64 hex characters, and each of the eight CL
and CR strings must be exactly 64 hex characters. -/
def ipaProofUnmarshal (aux : ipaproofMarshaller) : Option IPAProof :=
  if aux.FinalEvaluation.length = 64 then
    match hexDecode aux.FinalEvaluation with
    | none => none
    | some fe =>
      match ipaRounds aux (List.range 8) with
      | none => none
      | some (cls, crs) => some ⟨cls, crs, fit 32 fe⟩
  else none

/-- The auxiliary JSON shape of a VerkleProof (struct
verkleProofMarshaller). -/
structure verkleProofMarshaller where
  OtherStems : List (List Nat)
  DepthExtensionPresent : List Nat
  CommitmentsByPath : List (List Nat)
  D : List Nat
  ipaProof : Option IPAProof

/-- VerkleProof.UnmarshalJSON after the generic JSON parse: every hex
string is decoded and copied into its zero-initialised fixed array, with
no length validation of its own (only hex decodability is checked). -/
def verkleProofUnmarshal (aux : verkleProofMarshaller) : Option VerkleProof :=
  match hexDecode aux.DepthExtensionPresent with
  | none => none
  | some dep =>
    match aux.CommitmentsByPath.mapM (fun c => (hexDecode c).map (fit 32)) with
    | none => none
    | some cbp =>
      match hexDecode aux.D with
      | none => none
      | some d =>
        match aux.OtherStems.mapM (fun s => (hexDecode s).map (fit 31)) with
        | none => none
        | some os => some ⟨os, dep, cbp, fit 32 d, aux.ipaProof⟩

/-- The auxiliary JSON shape of a SuffixStateDiff (struct
suffixStateDiffMarshaller); an absent currentValue field leaves the
zero value, the empty string. -/
structure suffixStateDiffMarshaller where
  Suffix : Nat
  CurrentValue : List Nat

/-- SuffixStateDiff.UnmarshalJSON after the generic JSON parse: the
current value must be exactly 64 hex characters. -/
def suffixStateDiffUnmarshal (aux : suffixStateDiffMarshaller) : Option SuffixStateDiff :=
  if aux.CurrentValue.length = 64 then
    (hexDecode aux.CurrentValue).map (fun v => ⟨aux.Suffix, some (fit 32 v)⟩)
  else none

/-- The state-diff entry for one key and value, following the spec:
the suffix is the last key byte, the current value is the 32-byte value
when present and omitted otherwise. -/
def specSuffix (k v : Bytes) : SuffixStateDiff :=
  ⟨k.getD 31 0, if v = [] then none else some v⟩

/-- The state-diff grouping following the spec sentence: iterate keys
in order and start a new stem group whenever the 31-byte stem prefix
differs from the stem of the previous key; the previous key is carried along and
each comparison is against it. -/
def specGroupsAux (stem : Bytes) (acc : List SuffixStateDiff) (prev : Bytes) :
    List (Bytes × Bytes) → StateDiff
  | [] => [⟨stem, acc⟩]
  | (k, v) :: rest =>
    if k.take 31 = prev.take 31 then
      specGroupsAux stem (acc ++ [specSuffix k v]) k rest
    else
      ⟨stem, acc⟩ :: specGroupsAux (k.take 31) [specSuffix k v] k rest

/-- The full spec-side state-diff grouping (the reference definition the
serializer is compared against). -/
def specStateDiff : List (Bytes × Bytes) → StateDiff
  | [] => []
  | (k, v) :: rest => specGroupsAux (k.take 31) [specSuffix k v] k rest

/-- Splitting a 32-byte key into its 31-byte stem and its suffix byte is
lossless. -/
theorem key_split {k : Bytes} (h : k.length = 32) : k.take 31 ++ [k.getD 31 0] = k := by
  have h1 : (k.drop 31).length = 1 := by rw [List.length_drop, h]
  have hd : k.drop 31 = [k.getD 31 0] := by
    match hdrop : k.drop 31 with
    | [] => rw [hdrop] at h1; simp at h1
    | a :: b :: t => rw [hdrop] at h1; simp at h1
    | [a] =>
      have h3 := (List.getElem?_drop k 31 0).symm
      rw [hdrop] at h3
      simp only [List.getElem?_cons_zero, Nat.add_zero] at h3
      rw [List.getD_eq_getElem?_getD, h3]
      rfl
  rw [← hd, List.take_append_drop]

/-- Claim C4: calling the proof builder MakeVerkleMultiProof with an
empty key list fails with the empty-key-set error before any other work
and produces no proof. -/
theorem makeVerkleMultiProof_empty_keys
    (walk : List Bytes → ProofElements × List Nat × List Bytes)
    (createMP : List (Option Pt) → List (List Fr) → List Nat → MultiProof)
    (keyvals : List (Bytes × Bytes)) :
    makeVerkleMultiProof walk createMP [] keyvals = .error .emptyKeySet := rfl

/-- Claim C7: in the serialization loop, a value whose length is
strictly between 0 and 32 bytes is stored right-padded with zeros to
exactly 32 bytes as the suffix current value, and a zero-length value
yields an omitted current value. -/
theorem serialize_value_padding (key value : Bytes) (hk : key.length = 32) :
    (0 < value.length → value.length < 32 →
      mkSuffixDiff key value =
        some ⟨key.getD 31 0, some (value ++ List.replicate (32 - value.length) 0)⟩ ∧
      (value ++ List.replicate (32 - value.length) 0).length = 32) ∧
    mkSuffixDiff key [] = some ⟨key.getD 31 0, none⟩ := by
  constructor
  · intro h1 h2
    have hne0 : ¬ value.length = 0 := by omega
    have hne32 : ¬ value.length = 32 := by omega
    constructor
    · simp [mkSuffixDiff, padTo32, hk, hne0, hne32, h2]
    · simp only [List.length_append, List.length_replicate]
      omega
  · simp [mkSuffixDiff, hk]

/-- Witness for claim C7 at a concrete key and 3-byte value. -/
theorem serialize_value_padding_witness :
    mkSuffixDiff (List.replicate 31 0 ++ [7]) [1, 2, 3] =
      some ⟨7, some ([1, 2, 3] ++ List.replicate 29 0)⟩ ∧
    mkSuffixDiff (List.replicate 31 0 ++ [7]) [] = some ⟨7, none⟩ := by
  have h := serialize_value_padding (List.replicate 31 0 ++ [7]) [1, 2, 3] (by decide)
  exact ⟨((h.1 (by decide) (by decide)).1).trans (by decide), h.2.trans (by decide)⟩

/-- A proof carrying one ABSENT_OTHER extension status but no
proof-of-absence stem. -/
def poaExhaustedProof : Proof :=
  ⟨⟨[], [], [], []⟩, [8], [], [], [List.replicate 32 0], [[]]⟩

/-- Claim C2: on a proof whose extension statuses contain more
ABSENT_OTHER entries than there are proof-of-absence stems,
TreeFromProof does not return a malformed-proof error: the
classification loop takes the head of the exhausted poa_stems slice and
the Go code panics with an index-out-of-range runtime error, whatever
the insertion phase would do. -/
theorem treeFromProof_poa_exhaustion_panics
    (insertPhase : List (Bytes × stemInfo) → TreeOutcome) :
    treeFromProofOutcome insertPhase poaExhaustedProof = .panicked ∧
    treeFromProofOutcome insertPhase poaExhaustedProof ≠ .failed := by
  have h : treeFromProofOutcome insertPhase poaExhaustedProof = .panicked := rfl
  refine ⟨h, ?_⟩
  rw [h]
  decide

/-- Claim C10: whenever the legacy binary DeserializeProof succeeds, the
keys and values of the returned proof are nil: the legacy wire format
carries no keys or values. -/
theorem legacy_deserialize_no_keys_values (bs : List Nat) (p : Proof)
    (h : deserializeProofLegacy bs = some p) : p.Keys = [] ∧ p.Values = [] := by
  simp only [deserializeProofLegacy, Option.bind_eq_some] at h
  obtain ⟨p1, -, p2, -, p3, -, p4, -, p5, -, p6, -, hfin⟩ := h
  cases hfin
  exact ⟨rfl, rfl⟩

/-- The proof the legacy deserializer produces on twelve zero bytes. -/
def legacyZeroProof : Proof := ⟨readMultiProofLenient [], [], [], [], [], []⟩

/-- Witness for claim C10: the all-zero-counts input deserializes
successfully, to a proof with nil keys and values. -/
theorem legacy_deserialize_no_keys_values_witness :
    deserializeProofLegacy (List.replicate 12 0) = some legacyZeroProof ∧
    legacyZeroProof.Keys = [] ∧ legacyZeroProof.Values = [] := by
  have hs : deserializeProofLegacy (List.replicate 12 0) = some legacyZeroProof := rfl
  exact ⟨hs, legacy_deserialize_no_keys_values _ _ hs⟩

theorem checkDecode64_eq_none {s : List Nat} (h : s.length ≠ 64) :
    checkDecode64 s = none := by
  simp [checkDecode64, h]

theorem ipaRounds_eq_none_of_CL {aux : ipaproofMarshaller} {i : Nat}
    {l : List Nat} (hmem : i ∈ l)
    (hnone : checkDecode64 (aux.CL.getD i []) = none) :
    ipaRounds aux l = none := by
  induction l with
  | nil => cases hmem
  | cons j rest ih =>
    simp only [ipaRounds]
    rcases List.mem_cons.mp hmem with rfl | hmem2
    · rw [hnone]
    · cases hcl : checkDecode64 (aux.CL.getD j []) with
      | none => rfl
      | some cl =>
        cases hcr : checkDecode64 (aux.CR.getD j []) with
        | none => rfl
        | some cr => rw [ih hmem2]

theorem ipaRounds_eq_none_of_CR {aux : ipaproofMarshaller} {i : Nat}
    {l : List Nat} (hmem : i ∈ l)
    (hnone : checkDecode64 (aux.CR.getD i []) = none) :
    ipaRounds aux l = none := by
  induction l with
  | nil => cases hmem
  | cons j rest ih =>
    simp only [ipaRounds]
    rcases List.mem_cons.mp hmem with rfl | hmem2
    · cases hcl : checkDecode64 (aux.CL.getD i []) with
      | none => rfl
      | some cl => rw [hnone]
    · cases hcl : checkDecode64 (aux.CL.getD j []) with
      | none => rfl
      | some cl =>
        cases hcr : checkDecode64 (aux.CR.getD j []) with
        | none => rfl
        | some cr => rw [ih hmem2]

/-- Claim C8, amended: the unmarshallers that do validate hex lengths
are IPAProof (final evaluation and each of the eight CL and CR strings
must be exactly 64 hex characters) and SuffixStateDiff (the current
value must be exactly 64 hex characters); the VerkleProof fields D,
commitmentsByPath and otherStems are not length-validated (see the
counterexample). -/
theorem json_hex_length_checks :
    (∀ aux : ipaproofMarshaller, aux.FinalEvaluation.length ≠ 64 →
      ipaProofUnmarshal aux = none) ∧
    (∀ (aux : ipaproofMarshaller) (i : Nat), i < 8 →
      (aux.CL.getD i []).length ≠ 64 → ipaProofUnmarshal aux = none) ∧
    (∀ (aux : ipaproofMarshaller) (i : Nat), i < 8 →
      (aux.CR.getD i []).length ≠ 64 → ipaProofUnmarshal aux = none) ∧
    (∀ aux : suffixStateDiffMarshaller, aux.CurrentValue.length ≠ 64 →
      suffixStateDiffUnmarshal aux = none) := by
  refine ⟨?_, ?_, ?_, ?_⟩
  · intro aux h
    simp [ipaProofUnmarshal, h]
  · intro aux i hi hlen
    by_cases hfe : aux.FinalEvaluation.length = 64
    · cases hfd : hexDecode aux.FinalEvaluation with
      | none => simp [ipaProofUnmarshal, hfe, hfd]
      | some fe =>
        have hr := ipaRounds_eq_none_of_CL
          (List.mem_range.mpr hi) (checkDecode64_eq_none hlen)
        simp [ipaProofUnmarshal, hfe, hfd, hr]
    · simp [ipaProofUnmarshal, hfe]
  · intro aux i hi hlen
    by_cases hfe : aux.FinalEvaluation.length = 64
    · cases hfd : hexDecode aux.FinalEvaluation with
      | none => simp [ipaProofUnmarshal, hfe, hfd]
      | some fe =>
        have hr := ipaRounds_eq_none_of_CR
          (List.mem_range.mpr hi) (checkDecode64_eq_none hlen)
        simp [ipaProofUnmarshal, hfe, hfd, hr]
    · simp [ipaProofUnmarshal, hfe]
  · intro aux h
    simp [suffixStateDiffUnmarshal, h]

/-- Witness for claim C8 (amended form) at concrete marshaller values:
an empty final-evaluation string, an empty CL string, an empty CR
string and an empty current-value string each make the respective
unmarshal fail. -/
theorem json_hex_length_checks_witness :
    ipaProofUnmarshal ⟨[], [], []⟩ = none ∧
    ipaProofUnmarshal ⟨[], [], List.replicate 64 48⟩ = none ∧
    ipaProofUnmarshal ⟨List.replicate 8 (List.replicate 64 48), [], List.replicate 64 48⟩ = none ∧
    suffixStateDiffUnmarshal ⟨0, []⟩ = none := by
  have h := json_hex_length_checks
  exact ⟨h.1 _ (by decide), h.2.1 _ 0 (by decide) (by decide),
         h.2.2.1 _ 0 (by decide) (by decide), h.2.2.2 _ (by decide)⟩

/-- A VerkleProof marshaller whose D (0 hex characters), first
commitment (2 hex characters) and first other stem (2 hex characters)
all have the wrong hex length for their fixed-size byte arrays. -/
def noLenCheckAux : verkleProofMarshaller := ⟨[[48, 48]], [], [[48, 48]], [], none⟩

/-- Counterexample for claim C8: VerkleProof.UnmarshalJSON succeeds even
though the hex lengths of D, the commitment and the other stem all
differ from twice the byte width of their fields; the decoded bytes are
merely copied into the zeroed fixed arrays. -/
theorem verkleProof_unmarshal_no_length_check :
    verkleProofUnmarshal noLenCheckAux =
      some ⟨[0 :: List.replicate 30 0], [], [0 :: List.replicate 31 0],
            List.replicate 32 0, none⟩ ∧
    noLenCheckAux.D.length ≠ 64 ∧
    (noLenCheckAux.CommitmentsByPath.getD 0 []).length ≠ 64 ∧
    (noLenCheckAux.OtherStems.getD 0 []).length ≠ 62 := by
  refine ⟨by decide, by decide, by decide, by decide⟩

/-- Key-and-value well-formedness as guaranteed for proofs built from a
valid tree and key set: full 32-byte keys, and values either absent or
exactly 32 bytes. -/
def kvWF (kv : Bytes × Bytes) : Prop :=
  kv.1.length = 32 ∧ (kv.2.length = 0 ∨ kv.2.length = 32)

instance : DecidablePred kvWF := fun kv =>
  inferInstanceAs (Decidable (kv.1.length = 32 ∧ (kv.2.length = 0 ∨ kv.2.length = 32)))

theorem mkSuffixDiff_wf {k v : Bytes} (hk : k.length = 32)
    (hv : v.length = 0 ∨ v.length = 32) :
    mkSuffixDiff k v = some (specSuffix k v) := by
  rcases hv with hv | hv
  · have hnil : v = [] := List.eq_nil_of_length_eq_zero hv
    subst hnil
    simp [mkSuffixDiff, specSuffix, hk]
  · have hne : v ≠ [] := by
      intro hc
      rw [hc] at hv
      simp at hv
    have h0 : ¬ v.length = 0 := by omega
    simp [mkSuffixDiff, specSuffix, hk, hv, h0, hne]

theorem sdLoop_eq_spec (kvs : List (Bytes × Bytes)) :
    ∀ (stem : Bytes) (acc : List SuffixStateDiff) (prev : Bytes),
    stem = prev.take 31 →
    (∀ kv ∈ kvs, kvWF kv) →
    sdLoop ⟨stem, acc⟩ kvs = some (specGroupsAux stem acc prev kvs) := by
  induction kvs with
  | nil =>
    intro stem acc prev _ _
    rfl
  | cons kv rest ih =>
    intro stem acc prev hstem hwf
    obtain ⟨k, v⟩ := kv
    obtain ⟨hk, hv⟩ := hwf (k, v) (List.mem_cons_self _ _)
    have hwf2 : ∀ kv ∈ rest, kvWF kv := fun kv hkv => hwf kv (List.mem_cons_of_mem _ hkv)
    simp only [sdLoop, specGroupsAux, mkSuffixDiff_wf hk hv]
    by_cases hc : stem = k.take 31
    · have hcond : k.take 31 = prev.take 31 := by rw [← hc, hstem]
      rw [if_pos hc, if_pos hcond]
      exact ih stem (acc ++ [specSuffix k v]) k hc hwf2
    · have hcond : ¬ k.take 31 = prev.take 31 := by
        intro hcc
        exact hc (hstem.trans hcc.symm)
      rw [if_neg hc, if_neg hcond, ih (k.take 31) [specSuffix k v] k rfl hwf2]
      rfl

/-- Claim C6: over sorted full keys with well-formed values, the
state-diff grouping of the serializer equals the spec-side grouping
that starts a new stem group exactly when the 31-byte stem prefix of a
key differs from that of the previous key. -/
theorem serialize_statediff_grouping (kvs : List (Bytes × Bytes))
    (hwf : ∀ kv ∈ kvs, kvWF kv) :
    buildStateDiff kvs = some (specStateDiff kvs) := by
  cases kvs with
  | nil => rfl
  | cons kv rest =>
    obtain ⟨k, v⟩ := kv
    obtain ⟨hk, hv⟩ := hwf (k, v) (List.mem_cons_self _ _)
    simp only [buildStateDiff, specStateDiff, mkSuffixDiff_wf hk hv]
    exact sdLoop_eq_spec rest (k.take 31) [specSuffix k v] k rfl
      (fun kv hkv => hwf kv (List.mem_cons_of_mem _ hkv))

/-- Witness for claim C6, the concrete scenario of the claim: two keys
sharing the stem with suffixes 0 and 128 and 32-byte values yield
exactly one stem group with the two suffix diffs in key order. -/
theorem serialize_statediff_grouping_witness :
    buildStateDiff
      [(List.replicate 31 5 ++ [0], List.replicate 32 1),
       (List.replicate 31 5 ++ [128], List.replicate 32 2)] =
      some [⟨List.replicate 31 5,
             [⟨0, some (List.replicate 32 1)⟩, ⟨128, some (List.replicate 32 2)⟩]⟩] := by
  have h := serialize_statediff_grouping
    [(List.replicate 31 5 ++ [0], List.replicate 32 1),
     (List.replicate 31 5 ++ [128], List.replicate 32 2)]
    (by decide)
  rw [h]
  decide

theorem statediffKVs_cons (g : StemStateDiff) (gs : StateDiff) :
    statediffKVs (g :: gs) = g.SuffixDiffs.map (sfdKV g.Stem) ++ statediffKVs gs := by
  simp [statediffKVs]

theorem sfdKV_spec {k : Bytes} (v : Bytes) (hk : k.length = 32)
    (stem : Bytes) (hstem : stem = k.take 31) :
    sfdKV stem (specSuffix k v) = (k, v) := by
  subst hstem
  have ht : (k.take 31).length = 31 := by simp [List.length_take, hk]
  simp only [sfdKV, specSuffix]
  rw [fit_of_length ht]
  by_cases hv : v = []
  · subst hv
    rw [if_pos rfl]
    show (k.take 31 ++ [k.getD 31 0], ([] : Bytes)) = (k, [])
    rw [key_split hk]
  · rw [if_neg hv]
    show (k.take 31 ++ [k.getD 31 0], v) = (k, v)
    rw [key_split hk]

theorem sdLoop_kvs (kvs : List (Bytes × Bytes)) :
    ∀ cur : StemStateDiff, cur.Stem.length = 31 →
    (∀ kv ∈ kvs, kvWF kv) →
    ∃ sd, sdLoop cur kvs = some sd ∧
      statediffKVs sd = cur.SuffixDiffs.map (sfdKV cur.Stem) ++ kvs := by
  induction kvs with
  | nil =>
    intro cur _ _
    exact ⟨[cur], rfl, by simp [statediffKVs]⟩
  | cons kv rest ih =>
    intro cur hstem hwf
    obtain ⟨k, v⟩ := kv
    obtain ⟨hk, hv⟩ := hwf _ (List.mem_cons_self _ _)
    have hwf2 : ∀ kv ∈ rest, kvWF kv := fun kv hkv => hwf kv (List.mem_cons_of_mem _ hkv)
    by_cases hc : cur.Stem = k.take 31
    · obtain ⟨sd, h1, h2⟩ := ih ⟨cur.Stem, cur.SuffixDiffs ++ [specSuffix k v]⟩ hstem hwf2
      refine ⟨sd, ?_, ?_⟩
      · simp only [sdLoop, mkSuffixDiff_wf hk hv, if_pos hc]
        exact h1
      · rw [h2]
        simp [sfdKV_spec v hk cur.Stem hc]
    · obtain ⟨sd, h1, h2⟩ := ih ⟨k.take 31, [specSuffix k v]⟩
        (by simp [List.length_take, hk]) hwf2
      refine ⟨cur :: sd, ?_, ?_⟩
      · simp only [sdLoop, mkSuffixDiff_wf hk hv, if_neg hc, h1]
        rfl
      · rw [statediffKVs_cons, h2]
        simp [sfdKV_spec v hk (k.take 31) rfl]

theorem buildStateDiff_kvs (kvs : List (Bytes × Bytes))
    (hwf : ∀ kv ∈ kvs, kvWF kv) :
    ∃ sd, buildStateDiff kvs = some sd ∧ statediffKVs sd = kvs := by
  cases kvs with
  | nil => exact ⟨[], rfl, rfl⟩
  | cons kv rest =>
    obtain ⟨k, v⟩ := kv
    obtain ⟨hk, hv⟩ := hwf _ (List.mem_cons_self _ _)
    obtain ⟨sd, h1, h2⟩ := sdLoop_kvs rest ⟨k.take 31, [specSuffix k v]⟩
      (by simp [List.length_take, hk])
      (fun kv hkv => hwf kv (List.mem_cons_of_mem _ hkv))
    refine ⟨sd, ?_, ?_⟩
    · simp only [buildStateDiff, mkSuffixDiff_wf hk hv]
      exact h1
    · rw [h2]
      simp [sfdKV_spec v hk (k.take 31) rfl]

theorem collectPtrs_isSome {cs : List (Option Pt)} (h : ∀ c ∈ cs, c.isSome = true) :
    ∃ l, collectPtrs cs = some l ∧ l.map some = cs := by
  induction cs with
  | nil => exact ⟨[], rfl, rfl⟩
  | cons c rest ih =>
    obtain ⟨a, ha⟩ := Option.isSome_iff_exists.mp (h c (List.mem_cons_self _ _))
    obtain ⟨l, h1, h2⟩ := ih (fun c hc => h c (List.mem_cons_of_mem _ hc))
    subst ha
    refine ⟨a :: l, ?_, by simp [h2]⟩
    simp only [collectPtrs, h1]

theorem fitPts_of_length {n : Nat} {xs : List Pt} (h : xs.length = n) : fitPts n xs = xs := by
  unfold fitPts
  rw [h, Nat.sub_self, List.replicate_zero, List.append_nil, List.take_of_length_le (le_of_eq h)]

/-- Claim C1: for a proof with the shape the builder guarantees on a
valid tree and key set (eight IPA rounds, 31-byte proof-of-absence
stems, non-nil commitments, full 32-byte keys with values absent or
exactly 32 bytes, parallel key and value lists), serializing and then
deserializing returns the identical proof, the commitment decoding
being trusted. -/
theorem serialize_deserialize_roundtrip (p : Proof)
    (hL : p.Multipoint.L.length = 8) (hR : p.Multipoint.R.length = 8)
    (hpoa : ∀ s ∈ p.PoaStems, s.length = 31)
    (hcs : ∀ c ∈ p.Cs, c.isSome = true)
    (hlen : p.Values.length = p.Keys.length)
    (hkeys : ∀ k ∈ p.Keys, k.length = 32)
    (hvals : ∀ v ∈ p.Values, v.length = 0 ∨ v.length = 32) :
    ∃ vp sd, serializeProof p = some (vp, sd) ∧ deserializeProof vp sd = some p := by
  obtain ⟨⟨D, L, R, A⟩, es, cs, poa, ks, vs⟩ := p
  simp only at hL hR hpoa hcs hlen hkeys hvals
  have hwf : ∀ kv ∈ ks.zip vs, kvWF kv := by
    intro kv hkv
    obtain ⟨k, v⟩ := kv
    obtain ⟨hk, hv⟩ := List.of_mem_zip hkv
    exact ⟨hkeys k hk, hvals v hv⟩
  obtain ⟨l, hmapm, hmap⟩ := collectPtrs_isSome hcs
  obtain ⟨sd, hsd, hkvs⟩ := buildStateDiff_kvs (ks.zip vs) hwf
  have hcond1 : ¬ (L.length < 8 ∨ R.length < 8) := by omega
  have hcond2 : ¬ (vs.length < ks.length) := by omega
  refine ⟨⟨poa.map (fit 31), es, l, D, some ⟨L.take 8, R.take 8, A⟩⟩, sd, ?_, ?_⟩
  · unfold serializeProof
    rw [if_neg hcond1, if_neg hcond2]
    simp only [hmapm, hsd]
  · unfold deserializeProof
    have h1 : fitPts 8 (L.take 8) = L := by
      rw [List.take_of_length_le (le_of_eq hL)]
      exact fitPts_of_length hL
    have h2 : fitPts 8 (R.take 8) = R := by
      rw [List.take_of_length_le (le_of_eq hR)]
      exact fitPts_of_length hR
    have h4 : poa.map (fit 31) = poa := by
      have h5 : poa.map (fit 31) = poa.map id :=
        List.map_congr_left (fun s hs => fit_of_length (hpoa s hs))
      simpa using h5
    have h5 : (statediffKVs sd).map Prod.fst = ks := by
      rw [hkvs]
      exact List.map_fst_zip ks vs (le_of_eq hlen.symm)
    have h6 : (statediffKVs sd).map Prod.snd = vs := by
      rw [hkvs]
      exact List.map_snd_zip ks vs (le_of_eq hlen)
    simp only [h1, h2, h4, h5, h6, hmap]

/-- A concrete well-formed proof for the round-trip witness. -/
def roundTripProof : Proof :=
  ⟨⟨List.replicate 32 0, List.replicate 8 (List.replicate 32 0),
    List.replicate 8 (List.replicate 32 0), List.replicate 32 0⟩,
   [9], [some (List.replicate 32 3)], [List.replicate 31 4],
   [List.replicate 31 5 ++ [0]], [List.replicate 32 1]⟩

/-- Witness for claim C1 at a concrete one-key proof. -/
theorem serialize_deserialize_roundtrip_witness :
    ∃ vp sd, serializeProof roundTripProof = some (vp, sd) ∧
      deserializeProof vp sd = some roundTripProof :=
  serialize_deserialize_roundtrip roundTripProof (by decide) (by decide) (by decide)
    (by decide) (by decide) (by decide) (by decide)

theorem byPathGet_mem (entries : List (Bytes × Pt)) (p : Bytes)
    (h : p ∈ entries.map Prod.fst) :
    ∃ C, byPathGet entries p = some C ∧ (p, C) ∈ entries := by
  induction entries with
  | nil => simp at h
  | cons e rest ih =>
    by_cases he : e.1 = p
    · refine ⟨e.2, by rw [byPathGet, if_pos he], ?_⟩
      have hpe : (p, e.2) = e := by
        rw [← he]
      rw [hpe]
      exact List.mem_cons_self _ _
    · have h2 : p ∈ rest.map Prod.fst := by
        obtain ⟨q, hq, hqp⟩ := List.mem_map.mp h
        rcases List.mem_cons.mp hq with rfl | hq2
        · exact absurd hqp he
        · exact List.mem_map.mpr ⟨q, hq2, hqp⟩
      obtain ⟨C, h3, h4⟩ := ih h2
      exact ⟨C, by rw [byPathGet, if_neg he]; exact h3, List.mem_cons_of_mem _ h4⟩

theorem filter_nonempty_length {l : List Bytes} (hnd : l.Nodup)
    (hroot : ([] : Bytes) ∈ l) :
    (l.filter (fun p => !p.isEmpty)).length = l.length - 1 := by
  induction l with
  | nil => cases hroot
  | cons a rest ih =>
    by_cases ha : a = ([] : Bytes)
    · subst ha
      have hrest : ∀ x ∈ rest, (!x.isEmpty) = true := by
        intro x hx
        have hne : x ≠ [] := by
          intro hc
          subst hc
          exact (List.nodup_cons.mp hnd).1 hx
        simpa [List.isEmpty_iff] using hne
      rw [List.filter_cons_of_neg (by simp), List.filter_eq_self.mpr hrest]
      simp
    · have hmem : ([] : Bytes) ∈ rest := by
        rcases List.mem_cons.mp hroot with h | h
        · exact absurd h.symm ha
        · exact h
      have ih2 := ih (List.nodup_cons.mp hnd).2 hmem
      have hpos : 0 < rest.length := List.length_pos_of_mem hmem
      rw [List.filter_cons_of_pos (by simpa [List.isEmpty_iff] using ha)]
      simp only [List.length_cons, ih2]
      omega

theorem pathsOf_spec (entries : List (Bytes × Pt))
    (hnd : (entries.map Prod.fst).Nodup)
    (hroot : ([] : Bytes) ∈ entries.map Prod.fst) :
    (pathsOf entries).Perm ((entries.map Prod.fst).filter (fun p => !p.isEmpty)) ∧
    (pathsOf entries).length = entries.length - 1 ∧
    List.Sorted BLE (pathsOf entries) := by
  have hperm1 : (pathsOf entries).Perm
      ((entries.map Prod.fst).filter (fun p => !p.isEmpty)) :=
    List.perm_insertionSort _ _
  refine ⟨hperm1, ?_, List.sorted_insertionSort BLE _⟩
  rw [hperm1.length_eq, filter_nonempty_length hnd hroot, List.length_map]

/-- Claim C5: under the map invariants of the aggregator (pairwise
distinct paths, a root entry present), the commitment vector built by
MakeVerkleMultiProof is exactly the commitments of the non-root paths
of ByPath, listed in strictly ascending lexicographic path order, with
the root commitment excluded. -/
theorem makeVerkleMultiProof_cs_sorted (entries : List (Bytes × Pt))
    (hnd : (entries.map Prod.fst).Nodup)
    (hroot : ([] : Bytes) ∈ entries.map Prod.fst) :
    ∃ ps : List Bytes,
      buildCis entries = some (ps.map (byPathGet entries)) ∧
      ps.Perm ((entries.map Prod.fst).filter (fun p => !p.isEmpty)) ∧
      List.Sorted BLT ps ∧
      ([] : Bytes) ∉ ps ∧
      ∀ p ∈ ps, ∃ C, byPathGet entries p = some C ∧ (p, C) ∈ entries := by
  obtain ⟨hperm, hlen, hsorted⟩ := pathsOf_spec entries hnd hroot
  have hmapne : entries ≠ [] := by
    intro h
    subst h
    simp at hroot
  have hne : ¬ entries.length = 0 :=
    fun h => hmapne (List.eq_nil_of_length_eq_zero h)
  refine ⟨pathsOf entries, ?_, hperm, ?_, ?_, ?_⟩
  · unfold buildCis
    rw [if_neg hne, if_neg (by omega : ¬ entries.length - 1 < (pathsOf entries).length)]
    have hz : entries.length - 1 - (pathsOf entries).length = 0 := by omega
    rw [hz, List.replicate_zero, List.append_nil]
  · have hndps : (pathsOf entries).Nodup :=
      (hperm.nodup_iff).mpr (List.Nodup.filter _ hnd)
    exact hsorted.imp₂ (fun a b hle hab => BLT_of_BLE_ne hle hab) hndps
  · intro hmem
    have h2 := List.of_mem_filter (hperm.subset hmem)
    simp at h2
  · intro p hp
    exact byPathGet_mem entries p (List.mem_of_mem_filter (hperm.subset hp))

/-- A concrete ByPath enumeration with a root entry and two non-root
paths, out of order. -/
def c5Entries : List (Bytes × Pt) := [([2], [10]), ([], [11]), ([1], [12])]

/-- Witness for claim C5 at the concrete enumeration. -/
theorem makeVerkleMultiProof_cs_sorted_witness :
    ∃ ps : List Bytes,
      buildCis c5Entries = some (ps.map (byPathGet c5Entries)) ∧
      ps.Perm ((c5Entries.map Prod.fst).filter (fun p => !p.isEmpty)) ∧
      List.Sorted BLT ps ∧
      ([] : Bytes) ∉ ps ∧
      ∀ p ∈ ps, ∃ C, byPathGet c5Entries p = some C ∧ (p, C) ∈ c5Entries :=
  makeVerkleMultiProof_cs_sorted c5Entries (by decide) (by decide)

theorem byPathGet_perm : ∀ {e1 e2 : List (Bytes × Pt)}, e1.Perm e2 →
    (e1.map Prod.fst).Nodup → ∀ p, byPathGet e1 p = byPathGet e2 p := by
  intro e1 e2 h
  induction h with
  | nil =>
    intro _ p
    rfl
  | cons x h ih =>
    intro hnd p
    simp only [List.map_cons, List.nodup_cons] at hnd
    simp only [byPathGet]
    by_cases hx : x.1 = p
    · rw [if_pos hx, if_pos hx]
    · rw [if_neg hx, if_neg hx]
      exact ih hnd.2 p
  | swap x y l =>
    intro hnd p
    simp only [List.map_cons, List.nodup_cons, List.mem_cons] at hnd
    have hxy : y.1 ≠ x.1 := fun hc => hnd.1 (Or.inl hc)
    simp only [byPathGet]
    by_cases hy : y.1 = p <;> by_cases hx : x.1 = p
    · exact absurd (hy.trans hx.symm) hxy
    · rw [if_pos hy, if_neg hx, if_pos hy]
    · rw [if_neg hy, if_pos hx, if_pos hx]
    · rw [if_neg hy, if_neg hx, if_neg hx, if_neg hy]
  | trans h1 h2 ih1 ih2 =>
    intro hnd p
    rw [ih1 hnd p, ih2 ((h1.map Prod.fst).nodup_iff.mp hnd) p]

theorem pathsOf_perm {e1 e2 : List (Bytes × Pt)} (h : e1.Perm e2) :
    pathsOf e1 = pathsOf e2 := by
  unfold pathsOf
  refine List.eq_of_perm_of_sorted ?_ (List.sorted_insertionSort BLE _)
    (List.sorted_insertionSort BLE _)
  have p1 := List.perm_insertionSort BLE ((e1.map Prod.fst).filter (fun p => !p.isEmpty))
  have p2 : ((e1.map Prod.fst).filter (fun p => !p.isEmpty)).Perm
      ((e2.map Prod.fst).filter (fun p => !p.isEmpty)) := (h.map Prod.fst).filter _
  have p3 := List.perm_insertionSort BLE ((e2.map Prod.fst).filter (fun p => !p.isEmpty))
  exact (p1.trans p2).trans p3.symm

theorem buildCis_perm {e1 e2 : List (Bytes × Pt)} (h : e1.Perm e2)
    (hnd : (e1.map Prod.fst).Nodup) : buildCis e1 = buildCis e2 := by
  unfold buildCis
  rw [h.length_eq, pathsOf_perm h]
  have hmap : (pathsOf e2).map (byPathGet e1) = (pathsOf e2).map (byPathGet e2) :=
    List.map_congr_left (fun p _ => byPathGet_perm h hnd p)
  rw [hmap]

/-- Claim C3: the build-and-serialize pipeline is a deterministic
function of its inputs. Two runs whose tree walks agree on everything
except the (arbitrary) iteration order of the ByPath map entries, with
paths pairwise distinct as a map guarantees, produce equal proofs and
identical wire output. -/
theorem build_serialize_deterministic
    (walk1 walk2 : List Bytes → ProofElements × List Nat × List Bytes)
    (createMP : List (Option Pt) → List (List Fr) → List Nat → MultiProof)
    (keys : List Bytes) (keyvals : List (Bytes × Bytes))
    (hsame : ∀ ks,
      (walk1 ks).1.Cis = (walk2 ks).1.Cis ∧
      (walk1 ks).1.Zis = (walk2 ks).1.Zis ∧
      (walk1 ks).1.Yis = (walk2 ks).1.Yis ∧
      (walk1 ks).1.Fis = (walk2 ks).1.Fis ∧
      (walk1 ks).1.ByPath.Perm (walk2 ks).1.ByPath ∧
      ((walk1 ks).1.ByPath.map Prod.fst).Nodup ∧
      (walk1 ks).2 = (walk2 ks).2) :
    makeVerkleMultiProof walk1 createMP keys keyvals =
      makeVerkleMultiProof walk2 createMP keys keyvals ∧
    buildAndSerialize walk1 createMP keys keyvals =
      buildAndSerialize walk2 createMP keys keyvals := by
  obtain ⟨h1, h2, h3, h4, h5, h6, h7⟩ := hsame (sortKeys keys)
  have hmk : makeVerkleMultiProof walk1 createMP keys keyvals =
      makeVerkleMultiProof walk2 createMP keys keyvals := by
    unfold makeVerkleMultiProof getCommitmentsForMultiproof
    by_cases hk : keys.length = 0
    · rw [if_pos hk, if_pos hk]
    · rw [if_neg hk, if_neg hk]
      dsimp only
      rw [h1, h2, h3, h4, h7, buildCis_perm h5 h6]
  refine ⟨hmk, ?_⟩
  unfold buildAndSerialize
  rw [hmk]

/-- A stub walk whose ByPath enumeration lists the root entry first. -/
def detWalk1 : List Bytes → ProofElements × List Nat × List Bytes :=
  fun _ => (⟨[], [], [], [], [([], [7]), ([1], [9])]⟩, [], [])

/-- The same stub walk with the ByPath entries in the other order. -/
def detWalk2 : List Bytes → ProofElements × List Nat × List Bytes :=
  fun _ => (⟨[], [], [], [], [([1], [9]), ([], [7])]⟩, [], [])

/-- A stub opening primitive. -/
def detMP : List (Option Pt) → List (List Fr) → List Nat → MultiProof :=
  fun _ _ _ => ⟨[], [], [], []⟩

/-- Witness for claim C3 at two concrete runs differing only in the
ByPath enumeration order. -/
theorem build_serialize_deterministic_witness :
    makeVerkleMultiProof detWalk1 detMP [List.replicate 32 0] [] =
      makeVerkleMultiProof detWalk2 detMP [List.replicate 32 0] [] ∧
    buildAndSerialize detWalk1 detMP [List.replicate 32 0] [] =
      buildAndSerialize detWalk2 detMP [List.replicate 32 0] [] :=
  build_serialize_deterministic detWalk1 detWalk2 detMP _ _
    (fun _ => ⟨rfl, rfl, rfl, rfl, List.Perm.swap _ _ _,
      (by decide : (([[], [1]] : List Bytes)).Nodup), rfl⟩)

/-- Claim C9, amended: a successful MakeVerkleMultiProof call leaves the
caller-supplied key list sorted in place: afterwards it holds the same keys in
ascending byte order (so it is unchanged exactly when the input was
already sorted), and the key list of the returned proof is that sorted
list. -/
theorem builder_sorts_caller_keys
    (walk : List Bytes → ProofElements × List Nat × List Bytes)
    (createMP : List (Option Pt) → List (List Fr) → List Nat → MultiProof)
    (keys : List Bytes) (keyvals : List (Bytes × Bytes)) (r : MakeResult)
    (h : makeVerkleMultiProof walk createMP keys keyvals = .ok r) :
    r.keysAfter.Perm keys ∧ List.Sorted BLE r.keysAfter ∧
    (List.Sorted BLE keys → r.keysAfter = keys) ∧ r.proof.Keys = r.keysAfter := by
  have hka : r.keysAfter = sortKeys keys ∧ r.proof.Keys = sortKeys keys := by
    unfold makeVerkleMultiProof getCommitmentsForMultiproof at h
    by_cases hk : keys.length = 0
    · rw [if_pos hk] at h
      exact Except.noConfusion h
    · rw [if_neg hk] at h
      dsimp only at h
      cases hb : buildCis ((walk (sortKeys keys)).1.ByPath) with
      | none =>
        rw [hb] at h
        exact Except.noConfusion h
      | some cis =>
        rw [hb] at h
        cases h
        exact ⟨rfl, rfl⟩
  obtain ⟨hka1, hka2⟩ := hka
  refine ⟨?_, ?_, ?_, ?_⟩
  · rw [hka1]
    exact List.perm_insertionSort _ _
  · rw [hka1]
    exact List.sorted_insertionSort BLE _
  · intro hs
    rw [hka1]
    exact List.Sorted.insertionSort_eq hs
  · rw [hka1, hka2]

/-- A stub walk whose ByPath enumeration holds only the root entry. -/
def mutWalk : List Bytes → ProofElements × List Nat × List Bytes :=
  fun _ => (⟨[], [], [], [], [([], [])]⟩, [], [])

/-- The smallest key, 32 zero bytes. -/
def keyA : Bytes := List.replicate 32 0

/-- A key above keyA in byte order. -/
def keyB : Bytes := 1 :: List.replicate 31 0

/-- Counterexample for claim C9: calling the builder on the key list
[keyB, keyA] leaves the caller-supplied key slice reordered to [keyA, keyB],
so the builder does not leave its key-list argument unchanged. -/
theorem builder_mutates_caller_keys :
    ∃ r, makeVerkleMultiProof mutWalk detMP [keyB, keyA] [] = .ok r ∧
      r.keysAfter ≠ [keyB, keyA] := by
  refine ⟨⟨⟨⟨[], [], [], []⟩, [], [], [], [keyA, keyB], [[], []]⟩,
           [], [], [], [keyA, keyB]⟩, ?_, ?_⟩
  · rfl
  · decide

/-- Witness for claim C9 (amended form), instantiated at the concrete
run of the counterexample. -/
theorem builder_sorts_caller_keys_witness :
    (([keyA, keyB] : List Bytes).Perm [keyB, keyA] ∧
     List.Sorted BLE [keyA, keyB] ∧
     (List.Sorted BLE [keyB, keyA] → ([keyA, keyB] : List Bytes) = [keyB, keyA]) ∧
     ([keyA, keyB] : List Bytes) = [keyA, keyB]) :=
  builder_sorts_caller_keys mutWalk detMP [keyB, keyA] []
    ⟨⟨⟨[], [], [], []⟩, [], [], [], [keyA, keyB], [[], []]⟩, [], [], [], [keyA, keyB]⟩
    rfl

end Verkle
